import Mathlib

/-!
Verification of the commit-grouping / commit-title pipeline of the deno-cli
repository. The TypeScript sources are shallowly embedded: JavaScript strings
are modelled as Lean strings (lists of characters), JavaScript string methods
as functions on the underlying character lists, and the LLM response stream as
a list of tagged message fragments.
-/

namespace Js

/-- The character code of the single-quote character, used to build string
constants that contain it. -/
def apos : String := ⟨[Char.ofNat 39]⟩

/-- JavaScript startsWith: prefix test on the character list. -/
def startsWith (s pat : String) : Bool := pat.data.isPrefixOf s.data

/-- JavaScript endsWith: suffix test on the character list. -/
def endsWith (s pat : String) : Bool := pat.data.isSuffixOf s.data

/-- Substring scan over character lists: does pat occur contiguously in s. -/
def includesL (pat : List Char) : List Char → Bool
  | [] => pat.isEmpty
  | c :: rest => pat.isPrefixOf (c :: rest) || includesL pat rest

/-- JavaScript includes: substring containment. -/
def includes (s pat : String) : Bool := includesL pat.data s.data

/-- JavaScript toLowerCase, restricted to the ASCII range as in Char.toLower. -/
def lower (s : String) : String := ⟨s.data.map Char.toLower⟩

/-- Whitespace characters recognised by trim. -/
def isWs (c : Char) : Bool := c == ' ' || c == '\t' || c == '\n' || c == '\r'

/-- Trim on character lists: drop whitespace from both ends. -/
def trimL (cs : List Char) : List Char :=
  ((cs.dropWhile isWs).reverse.dropWhile isWs).reverse

/-- JavaScript trim. -/
def trim (s : String) : String := ⟨trimL s.data⟩

/-- JavaScript split on a single-character separator. -/
def split (s : String) (sep : Char) : List String :=
  (s.data.splitOn sep).map (⟨·⟩)

/-- JavaScript substring(0, n) (n clamped below by 0 via Nat subtraction). -/
def takeStr (s : String) (n : Nat) : String := ⟨s.data.take n⟩

/-- JavaScript Array.prototype.join with a one-character separator. -/
def joinSep (sep : String) : List String → String
  | [] => ""
  | [s] => s
  | s :: rest => s ++ sep ++ joinSep sep rest

end Js

/-- One staged file, as produced by the git change reader: repository path,
single-letter git status code and textual diff. -/
structure GitFileChange where
  path : String
  status : String
  diff : String
deriving DecidableEq

/-- The categories assigned by FILE_TYPE_PATTERNS, plus the default. -/
inductive Category where
  | config | test | docs | build | other
deriving DecidableEq

/-- FILE_TYPE_PATTERNS.config from commit-title-generator.ts. -/
def isConfigPath (p : String) : Bool :=
  Js.endsWith p ".json" || Js.includes p "config" ||
  Js.endsWith p ".toml" || Js.endsWith p ".yaml" || Js.endsWith p ".yml"

/-- FILE_TYPE_PATTERNS.test from commit-title-generator.ts. -/
def isTestPath (p : String) : Bool :=
  Js.includes p "test" || Js.includes p "spec" ||
  Js.endsWith p ".test.ts" || Js.endsWith p ".spec.ts"

/-- FILE_TYPE_PATTERNS.docs from commit-title-generator.ts. -/
def isDocsPath (p : String) : Bool :=
  Js.endsWith p ".md" || Js.endsWith p ".rst" || Js.includes p "docs/"

/-- FILE_TYPE_PATTERNS.build from commit-title-generator.ts. -/
def isBuildPath (p : String) : Bool :=
  Js.includes p "build" || Js.includes p "dist" || Js.endsWith p ".lock"

/-- The first-match-wins walk over FILE_TYPE_PATTERNS in object-literal order
(config, test, docs, build), defaulting to other; this is the per-file body of
the loop in categorizeFiles. -/
def classify (path : String) : Category :=
  if isConfigPath path then .config
  else if isTestPath path then .test
  else if isDocsPath path then .docs
  else if isBuildPath path then .build
  else .other

/-- The five category buckets built by categorizeFiles. -/
structure Categories where
  config : List GitFileChange
  test : List GitFileChange
  docs : List GitFileChange
  build : List GitFileChange
  other : List GitFileChange

/-- categorizeFiles from commit-title-generator.ts: each file is pushed onto
the bucket of its first matching pattern, preserving input order. -/
def categorizeFiles : List GitFileChange → Categories
  | [] => ⟨[], [], [], [], []⟩
  | f :: rest =>
    let c := categorizeFiles rest
    match classify f.path with
    | .config => { c with config := f :: c.config }
    | .test => { c with test := f :: c.test }
    | .docs => { c with docs := f :: c.docs }
    | .build => { c with build := f :: c.build }
    | .other => { c with other := f :: c.other }

/-- generateFallbackTitle from commit-title-generator.ts. -/
def generateFallbackTitle (files : List GitFileChange) : String :=
  let categories := categorizeFiles files
  if ¬ categories.test.isEmpty then "test: update tests"
  else if ¬ categories.docs.isEmpty then "docs: update documentation"
  else if ¬ categories.config.isEmpty then "config: update configuration"
  else if ¬ categories.build.isEmpty then "build: update build files"
  else if files.any (fun f => f.status == "A") then "feat: add new files"
  else if files.any (fun f => f.status == "D") then "chore: remove files"
  else "refactor: update code"

/-- Push step of the fallbackGrouping loop: keep only non-empty buckets. -/
def pushNonEmpty (groups : List (List GitFileChange)) (bucket : List GitFileChange) :
    List (List GitFileChange) :=
  if bucket.isEmpty then groups else groups ++ [bucket]

/-- fallbackGrouping from gclm/main.ts: walk the buckets in the fixed order
config, docs, other, test, build, pushing non-empty ones; if nothing was
pushed return the whole input as one group. -/
def fallbackGrouping (files : List GitFileChange) : List (List GitFileChange) :=
  let categories := categorizeFiles files
  let groups := [categories.config, categories.docs, categories.other,
    categories.test, categories.build].foldl pushNonEmpty []
  if groups.length > 0 then groups else [files]

/-- One content block of an assistant message from the SDK stream. -/
inductive ContentBlock where
  | text (s : String)
  | other

/-- One SDK message fragment: a terminal result fragment carrying a text
payload, an assistant fragment carrying content blocks, or anything else. -/
inductive SDKMessage where
  | result (text : String)
  | assistant (content : List ContentBlock)
  | other

/-- The conventional-commit whitelist from isValidCommitTitle. -/
def conventionalPrefixes : List String :=
  ["feat:", "fix:", "docs:", "refactor:", "test:", "config:", "chore:",
   "style:", "perf:", "build:", "ci:", "revert:", "wip:"]

/-- The conversational-filler blacklist from isValidCommitTitle; the first
entry is the contraction of "I will". -/
def conversationalPhrases : List String :=
  ["i" ++ Js.apos ++ "ll", "looking at", "based on", "here", "this",
   "the code", "let me", "i can see", "it appears", "from the diff",
   "appears to", "wait for your input", "what task would you",
   "help you with"]

/-- isValidCommitTitle from commit-title-generator.ts. -/
def isValidCommitTitle (text : String) : Bool :=
  if text.data.isEmpty then false
  else
    let hasValidPrefix := conventionalPrefixes.any
      (fun p => Js.startsWith (Js.lower text) (Js.lower p))
    let hasConversationalPhrase := conversationalPhrases.any
      (fun ph => Js.includes (Js.lower text) (Js.lower ph))
    hasValidPrefix && !hasConversationalPhrase

/-- The per-payload line scan of extractTitleFromMessages: trim, split into
lines, return the first trimmed line accepted by isValidCommitTitle. -/
def validLineOf (text : String) : Option String :=
  let lines := Js.split (Js.trim text) '\n'
  lines.findSome? (fun line =>
    let cleanLine := Js.trim line
    if isValidCommitTitle cleanLine then some cleanLine else none)

/-- The per-message body of the extractTitleFromMessages loop: result
fragments with a truthy payload are scanned directly, assistant fragments are
scanned block by block for truthy text blocks. -/
def titleFromMessage : SDKMessage → Option String
  | .result t => if t.data.isEmpty then none else validLineOf t
  | .assistant blocks =>
    blocks.findSome? (fun b =>
      match b with
      | .text s => if s.data.isEmpty then none else validLineOf s
      | .other => none)
  | .other => none

/-- Backwards scan over a fragment list: the TypeScript loops run the index
from the last message down to the first, returning the first hit. -/
def scanBack (f : α → Option β) : List α → Option β
  | [] => none
  | x :: xs =>
    match scanBack f xs with
    | some r => some r
    | none => f x

/-- extractTitleFromMessages from commit-title-generator.ts. -/
def extractTitleFromMessages (messages : List SDKMessage) : Option String :=
  scanBack titleFromMessage messages

/-- The pure core of generateCommitTitle from commit-title-generator.ts: the
extracted title is truncated to the configured limit with an ellipsis, and a
missing title (which the source raises and immediately catches) degrades to
generateFallbackTitle. -/
def generateCommitTitle (messages : List SDKMessage) (files : List GitFileChange)
    (maxCommitTitleLength : Nat) : String :=
  match extractTitleFromMessages messages with
  | some title =>
    if title.length > maxCommitTitleLength then
      Js.takeStr title (maxCommitTitleLength - 3) ++ "..."
    else title
  | none => generateFallbackTitle files

/-- JSON values as produced by JSON.parse; numbers keep their lexeme. -/
inductive Json where
  | null
  | bool (b : Bool)
  | num (lexeme : String)
  | str (s : String)
  | arr (elems : List Json)
  | obj (fields : List (String × Json))

/-- JSON whitespace. -/
def jsonWs (c : Char) : Bool := c == ' ' || c == '\t' || c == '\n' || c == '\r'

/-- Drop leading JSON whitespace. -/
def skipWs (cs : List Char) : List Char := cs.dropWhile jsonWs

/-- Decode one JSON string body after the opening quote; supports the
standard escapes and rejects raw control characters. -/
def parseStringBody : List Char → Option (String × List Char)
  | [] => none
  | c :: rest =>
    if c == Char.ofNat 34 then some ("", rest)
    else if c == Char.ofNat 92 then
      match rest with
      | [] => none
      | e :: rest2 =>
        let dec : Option Char :=
          if e == Char.ofNat 34 then some (Char.ofNat 34)
          else if e == Char.ofNat 92 then some (Char.ofNat 92)
          else if e == '/' then some '/'
          else if e == 'b' then some (Char.ofNat 8)
          else if e == 'f' then some (Char.ofNat 12)
          else if e == 'n' then some '\n'
          else if e == 'r' then some '\r'
          else if e == 't' then some '\t'
          else none
        match dec with
        | some d =>
          match parseStringBody rest2 with
          | some (s, rem) => some (⟨d :: s.data⟩, rem)
          | none => none
        | none =>
          if e == 'u' then
            match rest2 with
            | h1 :: h2 :: h3 :: h4 :: rest3 =>
              if h1.isDigit || (h1.toLower ≥ 'a' && h1.toLower ≤ 'f') then
                if h2.isDigit || (h2.toLower ≥ 'a' && h2.toLower ≤ 'f') then
                  if h3.isDigit || (h3.toLower ≥ 'a' && h3.toLower ≤ 'f') then
                    if h4.isDigit || (h4.toLower ≥ 'a' && h4.toLower ≤ 'f') then
                      let hv : Char → Nat := fun h =>
                        if h.isDigit then h.toNat - 48 else h.toLower.toNat - 87
                      let code := ((hv h1 * 16 + hv h2) * 16 + hv h3) * 16 + hv h4
                      match parseStringBody rest3 with
                      | some (s, rem) => some (⟨Char.ofNat code :: s.data⟩, rem)
                      | none => none
                    else none
                  else none
                else none
              else none
            | _ => none
          else none
    else if c.toNat < 32 then none
    else
      match parseStringBody rest with
      | some (s, rem) => some (⟨c :: s.data⟩, rem)
      | none => none

/-- Scan the digits of a JSON number; result is the lexeme so far. -/
def digitRun (cs : List Char) : List Char × List Char :=
  (cs.takeWhile Char.isDigit, cs.dropWhile Char.isDigit)

/-- Decode one JSON number lexeme (sign, integer part without a leading zero,
optional fraction, optional exponent). -/
def parseNumber (cs : List Char) : Option (String × List Char) :=
  let (sign, cs1) :=
    match cs with
    | '-' :: rest => (['-'], rest)
    | _ => (([] : List Char), cs)
  match digitRun cs1 with
  | ([], _) => none
  | (d :: ds, cs2) =>
    if d == '0' && ¬ ds.isEmpty then none
    else
      let intPart := d :: ds
      let (frac, cs3) :=
        match cs2 with
        | '.' :: rest =>
          match digitRun rest with
          | ([], _) => (none, cs2)
          | (fs, rem) => (some ('.' :: fs), rem)
        | _ => (none, cs2)
      match frac, cs3 with
      | none, '.' :: _ => none
      | _, _ =>
        let fracPart := frac.getD []
        let (expo, cs4) :=
          match cs3 with
          | e :: rest =>
            if e == 'e' || e == 'E' then
              let (esign, rest2) :=
                match rest with
                | s :: r2 => if s == '+' || s == '-' then ([s], r2) else ([], rest)
                | [] => ([], rest)
              match digitRun rest2 with
              | ([], _) => (none, cs3)
              | (es, rem) => (some (e :: esign ++ es), rem)
            else (none, cs3)
          | [] => (none, cs3)
        match expo, cs4 with
        | none, e :: _ =>
          if e == 'e' || e == 'E' then none
          else some (⟨sign ++ intPart ++ fracPart⟩, cs4)
        | _, _ =>
          some (⟨sign ++ intPart ++ fracPart ++ expo.getD []⟩, cs4)

mutual

/-- Fuel-bounded recursive-descent parse of one JSON value, skipping leading
whitespace, in the style of JSON.parse. -/
def parseValue : Nat → List Char → Option (Json × List Char)
  | 0, _ => none
  | fuel + 1, cs =>
    match skipWs cs with
    | [] => none
    | c :: rest =>
      if c == '[' then
        match skipWs rest with
        | ']' :: rem => some (.arr [], rem)
        | _ =>
          match parseElems fuel rest with
          | some (es, rem) => some (.arr es, rem)
          | none => none
      else if c == Char.ofNat 123 then
        match skipWs rest with
        | c2 :: rem =>
          if c2 == Char.ofNat 125 then some (.obj [], rem)
          else
            match parseMembers fuel rest with
            | some (fs, rem2) => some (.obj fs, rem2)
            | none => none
        | [] => none
      else if c == Char.ofNat 34 then
        match parseStringBody rest with
        | some (s, rem) => some (.str s, rem)
        | none => none
      else
        match c :: rest with
        | 't' :: 'r' :: 'u' :: 'e' :: rem => some (.bool true, rem)
        | 'f' :: 'a' :: 'l' :: 's' :: 'e' :: rem => some (.bool false, rem)
        | 'n' :: 'u' :: 'l' :: 'l' :: rem => some (.null, rem)
        | cs2 =>
          match parseNumber cs2 with
          | some (lex, rem) => some (.num lex, rem)
          | none => none

/-- Parse the comma-separated elements of a non-empty JSON array, consuming
the closing bracket. -/
def parseElems : Nat → List Char → Option (List Json × List Char)
  | 0, _ => none
  | fuel + 1, cs =>
    match parseValue fuel cs with
    | none => none
    | some (v, rem) =>
      match skipWs rem with
      | ',' :: rem2 =>
        match parseElems fuel rem2 with
        | some (vs, rem3) => some (v :: vs, rem3)
        | none => none
      | ']' :: rem2 => some ([v], rem2)
      | _ => none

/-- Parse the comma-separated members of a non-empty JSON object, consuming
the closing brace. -/
def parseMembers : Nat → List Char → Option (List (String × Json) × List Char)
  | 0, _ => none
  | fuel + 1, cs =>
    match skipWs cs with
    | c :: rest =>
      if c == Char.ofNat 34 then
        match parseStringBody rest with
        | some (k, rem) =>
          match skipWs rem with
          | ':' :: rem2 =>
            match parseValue fuel rem2 with
            | some (v, rem3) =>
              match skipWs rem3 with
              | ',' :: rem4 =>
                match parseMembers fuel rem4 with
                | some (fs, rem5) => some ((k, v) :: fs, rem5)
                | none => none
              | c2 :: rem4 =>
                if c2 == Char.ofNat 125 then some ([(k, v)], rem4) else none
              | [] => none
            | none => none
          | _ => none
        | none => none
      else none
    | [] => none

end

/-- The model of JSON.parse: parse one value, then require only whitespace to
remain; any failure corresponds to the JavaScript call throwing. -/
def jsonParse (s : String) : Option Json :=
  match parseValue (2 * s.data.length + 2) s.data with
  | some (v, rest) => if (skipWs rest).isEmpty then some v else none
  | none => none

/-- The greedy bracket regex of extractGroupPathsFromMessages: match from the
first opening bracket through the last closing bracket of the text, when such
a pair exists in that order. -/
def bracketSlice (cs : List Char) : Option (List Char) :=
  let tl := cs.dropWhile (fun c => !(c == '['))
  let revCut := tl.reverse.dropWhile (fun c => !(c == ']'))
  if revCut.isEmpty then none else some revCut.reverse

/-- The shared try-block body of extractGroupPathsFromMessages on one text
payload: trim, prefer the bracketed substring when the regex matches, then
JSON-parse; a parse failure is the caught exception. The parse function is a
parameter so that the scanning behaviour can be stated for every parser. -/
def groupTextAttempt (parse : String → Option Json) (t : String) : Option Json :=
  let groupsText := Js.trim t
  match bracketSlice groupsText.data with
  | some m => parse ⟨m⟩
  | none => parse groupsText

/-- The per-message body of the extractGroupPathsFromMessages loop: a truthy
result payload is attempted directly; in an assistant message the first truthy
text block decides the whole message, because the source returns from inside
the block loop and a thrown parse abandons the message. -/
def groupsFromMessage (parse : String → Option Json) : SDKMessage → Option Json
  | .result t => if t.data.isEmpty then none else groupTextAttempt parse t
  | .assistant blocks =>
    match blocks.findSome? (fun b =>
      match b with
      | .text s => if s.data.isEmpty then none else some s
      | .other => none) with
    | some s => groupTextAttempt parse s
    | none => none
  | .other => none

/-- extractGroupPathsFromMessages from gclm/main.ts, scanning fragments most
recent first. -/
def extractGroupPathsFromMessages (parse : String → Option Json)
    (messages : List SDKMessage) : Option Json :=
  scanBack (groupsFromMessage parse) messages

/-- The Map built by convertPathsToFileGroups: on duplicate paths the last
entry wins, as in the JavaScript Map constructor. -/
def fileMapGet (files : List GitFileChange) (path : String) : Option GitFileChange :=
  files.reverse.find? (fun f => f.path == path)

/-- convertPathsToFileGroups from gclm/main.ts: resolve each path group
against the staged files, keep non-empty groups, and append all files not
mentioned in any path group as one trailing group. -/
def convertPathsToFileGroups (groupPaths : List (List String))
    (files : List GitFileChange) : List (List GitFileChange) :=
  let groups := (groupPaths.map
    (fun pathGroup => pathGroup.filterMap (fileMapGet files))).filter
      (fun g => ¬ g.isEmpty)
  let groupedPaths := groupPaths.flatten
  let ungroupedFiles := files.filter (fun f => ¬ groupedPaths.contains f.path)
  if ungroupedFiles.isEmpty then groups else groups ++ [ungroupedFiles]

/-- The non-blank status lines of the git name-status output, as filtered at
the top of getGitStagedFiles. -/
def statusLines (statusOutput : String) : List String :=
  (Js.split statusOutput '\n').filter (fun l => ¬ (Js.trim l).data.isEmpty)

/-- The per-line body of getGitStagedFiles: lines with fewer than two
tab-separated fields become null; otherwise the diff is retrieved through the
oracle getDiff (which abstracts the git show / git diff call keyed by status
and path) and a retrieval failure degrades to an empty diff. -/
def stagedEntry (getDiff : String → String → Option String) (line : String) :
    Option GitFileChange :=
  let parts := Js.split line '\t'
  if parts.length < 2 then none
  else
    let status := parts.getD 0 ""
    let path := parts.getD 1 ""
    match getDiff status path with
    | some diff => some ⟨path, status, diff⟩
    | none => some ⟨path, status, ""⟩

/-- getGitStagedFiles from git-operations.ts: map the status lines to
null-or-file entries, then filter out the nulls. -/
def getGitStagedFiles (statusOutput : String)
    (getDiff : String → String → Option String) : List GitFileChange :=
  let lines := statusLines statusOutput
  if lines.length = 0 then []
  else ((lines.map (stagedEntry getDiff)).filter Option.isSome).reduceOption

/-- Session metadata embedded by the pass-through wrapper; absent optional
fields are modelled by the empty string, which is what the truthiness checks
in the source test for. -/
structure SessionMetadata where
  sessionId : String
  prompt : String
  timestamp : String
  resumedFrom : String

/-- The double-quote character as a string. -/
def dq : String := ⟨[Char.ofNat 34]⟩

/-- The commit message built inside commitChanges in git-operations.ts: the
six-element array (title, empty separator, Session-ID trailer, conditional
Prompt trailer, Time trailer, conditional Resumed-From trailer) is filtered
through Boolean, which removes every empty string, and joined with newlines. -/
def commitChangesMessage (title : String) (metadata : SessionMetadata) : String :=
  let parts : List String :=
    [title,
     "",
     "Session-ID: " ++ metadata.sessionId,
     if ¬ metadata.prompt.data.isEmpty then
       "Prompt: " ++ dq ++ metadata.prompt ++ dq
     else "",
     "Time: " ++ metadata.timestamp,
     if ¬ metadata.resumedFrom.data.isEmpty then
       "Resumed-From: " ++ metadata.resumedFrom
     else ""]
  Js.joinSep "\n" (parts.filter (fun s => ¬ s.data.isEmpty))


/-- Bucket selection on the categorizeFiles record. -/
def bucketOf (c : Categories) : Category → List GitFileChange
  | .config => c.config
  | .test => c.test
  | .docs => c.docs
  | .build => c.build
  | .other => c.other

/-- The truthy text payloads the extraction loops can look at inside one
message fragment: the result payload, or the text content blocks. -/
def fragmentTexts : SDKMessage → List String
  | .result t => if t.data.isEmpty then [] else [t]
  | .assistant blocks =>
    blocks.filterMap (fun b =>
      match b with
      | .text s => if s.data.isEmpty then none else some s
      | .other => none)
  | .other => []

theorem Js.length_eq_data (s : String) : s.length = s.data.length := by
  cases s; rfl

theorem Js.data_append (s t : String) : (s ++ t).data = s.data ++ t.data := by
  cases s; cases t; rfl

theorem Js.includesL_iff (pat cs : List Char) :
    Js.includesL pat cs = true ↔ pat <:+: cs := by
  induction cs with
  | nil =>
    simp only [Js.includesL, List.isEmpty_iff]
    constructor
    · intro h; simp [h]
    · intro h; exact List.eq_nil_of_infix_nil h
  | cons c rest ih =>
    simp only [Js.includesL, Bool.or_eq_true, List.isPrefixOf_iff_prefix, ih]
    exact (List.infix_cons_iff).symm

theorem Js.includesL_map (f : Char → Char) (pat cs : List Char)
    (h : Js.includesL pat cs = true) :
    Js.includesL (pat.map f) (cs.map f) = true := by
  rw [Js.includesL_iff] at h ⊢
  obtain ⟨s, t, rfl⟩ := h
  exact ⟨s.map f, t.map f, by simp⟩

theorem scanBack_eq_none {f : α → Option β} :
    ∀ {l : List α}, scanBack f l = none ↔ ∀ x ∈ l, f x = none := by
  intro l
  induction l with
  | nil => simp [scanBack]
  | cons x xs ih =>
    simp only [scanBack, List.mem_cons]
    cases h : scanBack f xs with
    | some r =>
      simp only [reduceCtorEq, false_iff]
      intro hall
      have : scanBack f xs = none := ih.mpr (fun y hy => hall y (Or.inr hy))
      rw [h] at this; exact Option.noConfusion this
    | none =>
      constructor
      · intro hx y hy
        rcases hy with rfl | hy
        · exact hx
        · exact ih.mp h y hy
      · intro hall; exact hall x (Or.inl rfl)

theorem scanBack_append_last {f : α → Option β} {m : α} {r : β}
    (h : f m = some r) : ∀ (l : List α), scanBack f (l ++ [m]) = some r := by
  intro l
  induction l with
  | nil => simp [scanBack, h]
  | cons x xs ih => simp [scanBack, ih]

theorem categorize_bucket (files : List GitFileChange) (cat : Category) :
    bucketOf (categorizeFiles files) cat =
      files.filter (fun f => classify f.path == cat) := by
  induction files with
  | nil => cases cat <;> rfl
  | cons f rest ih =>
    simp only [categorizeFiles, List.filter_cons]
    cases hc : classify f.path <;> cases cat <;>
      simp_all [bucketOf, hc]

theorem foldl_pushNonEmpty (l : List (List GitFileChange)) :
    ∀ acc, l.foldl pushNonEmpty acc = acc ++ l.filter (fun b => ¬ b.isEmpty) := by
  induction l with
  | nil => intro acc; simp
  | cons b l ih =>
    intro acc
    simp only [List.foldl_cons, List.filter_cons, pushNonEmpty]
    cases hb : b.isEmpty <;> simp [ih, hb]

theorem flatten_filter_nonempty (L : List (List α)) :
    (L.filter (fun g => ¬ g.isEmpty)).flatten = L.flatten := by
  induction L with
  | nil => rfl
  | cons g L ih =>
    simp only [List.filter_cons]
    cases hg : g.isEmpty
    · simp only [List.flatten_cons] at *
      simp [hg]
      simpa using ih
    · have : g = [] := List.isEmpty_iff.mp hg
      subst this
      simp [hg]
      simpa using ih

theorem map_filter_isSome_reduceOption (f : α → Option β) (l : List α) :
    ((l.map f).filter Option.isSome).reduceOption = l.filterMap f := by
  induction l with
  | nil => rfl
  | cons x xs ih =>
    simp only [List.map_cons, List.filter_cons, List.filterMap_cons]
    cases h : f x <;> simp [List.reduceOption_cons_of_some, ih, h]

theorem fileMapGet_some {files : List GitFileChange} {p : String}
    {g : GitFileChange} (h : fileMapGet files p = some g) :
    g.path = p ∧ g ∈ files := by
  unfold fileMapGet at h
  refine ⟨?_, List.mem_reverse.mp (List.mem_of_find?_eq_some h)⟩
  have := List.find?_some h
  exact of_decide_eq_true this

theorem find?_path_unique {f : GitFileChange} :
    ∀ {l : List GitFileChange}, (l.map GitFileChange.path).Nodup → f ∈ l →
      l.find? (fun g => g.path == f.path) = some f := by
  intro l
  induction l with
  | nil => intro _ h; exact absurd h (List.not_mem_nil f)
  | cons g l ih =>
    intro hnd hf
    rw [List.map_cons, List.nodup_cons] at hnd
    rcases List.mem_cons.mp hf with rfl | hf
    · simp [List.find?]
    · have hne : g.path ≠ f.path := by
        intro he
        exact hnd.1 (he ▸ List.mem_map_of_mem GitFileChange.path hf)
      rw [List.find?]
      have : (g.path == f.path) = false := beq_eq_false_iff_ne.mpr hne
      rw [this]
      exact ih hnd.2 hf

theorem fileMapGet_self {files : List GitFileChange} {f : GitFileChange}
    (hnd : (files.map GitFileChange.path).Nodup) (hf : f ∈ files) :
    fileMapGet files f.path = some f := by
  unfold fileMapGet
  have hnd2 : (files.reverse.map GitFileChange.path).Nodup := by
    rw [List.map_reverse]
    exact List.nodup_reverse.mpr hnd
  exact find?_path_unique hnd2 (List.mem_reverse.mpr hf)

theorem count_filterMap_fileMap {files : List GitFileChange} {f : GitFileChange}
    (hnd : (files.map GitFileChange.path).Nodup) (hf : f ∈ files)
    (pg : List String) :
    (pg.filterMap (fileMapGet files)).count f = pg.count f.path := by
  rw [List.count_filterMap, List.count_eq_countP]
  refine List.countP_congr ?_
  intro p _
  constructor
  · intro h
    have h2 : fileMapGet files p = some f := eq_of_beq h
    have := (fileMapGet_some h2).1
    simp [← this]
  · intro h
    have h2 : p = f.path := of_decide_eq_true h
    subst h2
    rw [fileMapGet_self hnd hf]
    exact beq_self_eq_true _

theorem convert_flatten (groupPaths : List (List String))
    (files : List GitFileChange) :
    (convertPathsToFileGroups groupPaths files).flatten =
      (groupPaths.map (fun pg => pg.filterMap (fileMapGet files))).flatten ++
        files.filter (fun f => ¬ (groupPaths.flatten).contains f.path) := by
  unfold convertPathsToFileGroups
  cases hu : (files.filter
      (fun f => ¬ (groupPaths.flatten).contains f.path)).isEmpty
  · simp only [hu, Bool.false_eq_true, if_false, List.flatten_append,
      flatten_filter_nonempty, List.flatten_cons, List.flatten_nil,
      List.append_nil]
  · have h0 : files.filter (fun f => ¬ (groupPaths.flatten).contains f.path) = [] :=
      List.isEmpty_iff.mp hu
    simp only [h0, List.isEmpty_nil, if_true, List.append_nil]
    exact flatten_filter_nonempty _

theorem count_convert_eq_one {files : List GitFileChange}
    {groupPaths : List (List String)} {f : GitFileChange}
    (hnd : (files.map GitFileChange.path).Nodup)
    (hflat : groupPaths.flatten.Nodup) (hf : f ∈ files) :
    ((convertPathsToFileGroups groupPaths files).flatten).count f = 1 := by
  rw [convert_flatten, List.count_append]
  have hmapped : ((groupPaths.map
      (fun pg => pg.filterMap (fileMapGet files))).flatten).count f =
      (groupPaths.flatten).count f.path := by
    rw [List.count_flatten, List.count_flatten, List.map_map]
    congr 1
    refine List.map_congr_left ?_
    intro pg _
    exact count_filterMap_fileMap hnd hf pg
  rw [hmapped]
  by_cases hmem : f.path ∈ groupPaths.flatten
  · have h1 : (groupPaths.flatten).count f.path = 1 :=
      List.count_eq_one_of_mem hflat hmem
    have h2 : (files.filter
        (fun x => ¬ (groupPaths.flatten).contains x.path)).count f = 0 := by
      rw [List.count_eq_zero]
      intro hcontra
      have := (List.mem_filter.mp hcontra).2
      rw [decide_eq_true_eq] at this
      exact this (List.elem_iff.mpr hmem)
    omega
  · have h1 : (groupPaths.flatten).count f.path = 0 :=
      List.count_eq_zero_of_not_mem hmem
    have hpred : (fun x : GitFileChange =>
        ¬ (groupPaths.flatten).contains x.path = true) f := by
      intro hc
      exact hmem (List.elem_iff.mp hc)
    have h2 : (files.filter
        (fun x => ¬ (groupPaths.flatten).contains x.path)).count f =
        files.count f := by
      rw [List.count_filter]
      exact decide_eq_true hpred
    have h3 : files.count f = 1 :=
      List.count_eq_one_of_mem (List.Nodup.of_map GitFileChange.path hnd) hf
    omega

theorem mem_convert_flatten {files : List GitFileChange}
    {groupPaths : List (List String)} {f : GitFileChange}
    (hnd : (files.map GitFileChange.path).Nodup) (hf : f ∈ files) :
    f ∈ (convertPathsToFileGroups groupPaths files).flatten := by
  rw [convert_flatten, List.mem_append]
  by_cases hmem : f.path ∈ groupPaths.flatten
  · left
    obtain ⟨pg, hpg, hp⟩ := List.mem_flatten.mp hmem
    refine List.mem_flatten_of_mem (List.mem_map_of_mem _ hpg) ?_
    exact List.mem_filterMap.mpr ⟨f.path, hp, fileMapGet_self hnd hf⟩
  · right
    refine List.mem_filter.mpr ⟨hf, ?_⟩
    rw [decide_eq_true_eq]
    intro hc
    exact hmem (List.elem_iff.mp hc)

theorem count_buckets (f : GitFileChange) :
    ∀ files : List GitFileChange,
      (categorizeFiles files).config.count f + (categorizeFiles files).docs.count f +
      (categorizeFiles files).other.count f + (categorizeFiles files).test.count f +
      (categorizeFiles files).build.count f = files.count f := by
  intro files
  induction files with
  | nil => rfl
  | cons g rest ih =>
    unfold categorizeFiles
    cases hc : classify g.path <;> simp only [hc] <;>
      simp only [List.count_cons] <;> omega

theorem count_fallback (files : List GitFileChange) (f : GitFileChange) :
    ((fallbackGrouping files).flatten).count f = files.count f := by
  unfold fallbackGrouping
  simp only [foldl_pushNonEmpty, List.nil_append]
  split
  · rw [flatten_filter_nonempty]
    simp only [List.flatten_cons, List.flatten_nil, List.append_nil,
      List.count_append]
    have := count_buckets f files
    omega
  · simp [List.flatten_cons]

/-- Claim C1, counterexample: with staged file a.ts and the LLM answer
mentioning the path a.ts in two groups, convertPathsToFileGroups returns the
file twice — it appears in two groups, not in exactly one, so the conversion
is not a partition for arbitrary LLM output. -/
theorem convertPaths_repeated_path_duplicates :
    ((convertPathsToFileGroups [["a.ts"], ["a.ts"]]
        [⟨"a.ts", "M", ""⟩]).flatten.count ⟨"a.ts", "M", ""⟩) = 2 ∧
    ¬ ((convertPathsToFileGroups [["a.ts"], ["a.ts"]]
        [⟨"a.ts", "M", ""⟩]).flatten.count ⟨"a.ts", "M", ""⟩ = 1) := by
  exact ⟨rfl, by decide⟩

/-- Claim C1, amended: when the staged files have pairwise-distinct paths,
convertPathsToFileGroups never drops a file whatever the LLM returned, and it
is an exact partition whenever the LLM path groups mention no path twice;
fallbackGrouping preserves every multiplicity unconditionally. -/
theorem grouping_partition_amended :
    (∀ (files : List GitFileChange) (groupPaths : List (List String)),
      (files.map GitFileChange.path).Nodup →
      ∀ f ∈ files, f ∈ (convertPathsToFileGroups groupPaths files).flatten)
    ∧ (∀ (files : List GitFileChange) (groupPaths : List (List String)),
      (files.map GitFileChange.path).Nodup → groupPaths.flatten.Nodup →
      ∀ f ∈ files,
        ((convertPathsToFileGroups groupPaths files).flatten).count f = 1)
    ∧ (∀ (files : List GitFileChange) (f : GitFileChange),
      ((fallbackGrouping files).flatten).count f = files.count f) := by
  refine ⟨?_, ?_, ?_⟩
  · intro files groupPaths hnd f hf
    exact mem_convert_flatten hnd hf
  · intro files groupPaths hnd hflat f hf
    exact count_convert_eq_one hnd hflat hf
  · intro files f
    exact count_fallback files f

/-- Witness for the amended C1 theorem at a two-file input and a one-group
LLM answer that mentions only one of the files. -/
theorem grouping_partition_amended_witness :
    ((convertPathsToFileGroups [["a.ts"]]
      [⟨"a.ts", "M", ""⟩, ⟨"b.md", "A", ""⟩]).flatten).count ⟨"b.md", "A", ""⟩ = 1 :=
  grouping_partition_amended.2.1 [⟨"a.ts", "M", ""⟩, ⟨"b.md", "A", ""⟩]
    [["a.ts"]] (by decide) (by decide) ⟨"b.md", "A", ""⟩ (by decide)

/-- Claim C10: every group emitted by convertPathsToFileGroups is non-empty
for any input, and every group emitted by fallbackGrouping is non-empty when
the input file list is non-empty. -/
theorem grouping_groups_nonempty :
    (∀ (groupPaths : List (List String)) (files : List GitFileChange),
      ∀ g ∈ convertPathsToFileGroups groupPaths files, ¬ g.isEmpty = true)
    ∧ (∀ files : List GitFileChange, files ≠ [] →
      ∀ g ∈ fallbackGrouping files, ¬ g.isEmpty = true) := by
  constructor
  · intro groupPaths files g hg
    unfold convertPathsToFileGroups at hg
    have hfiltered : ∀ g2 ∈ (groupPaths.map
        (fun pg => pg.filterMap (fileMapGet files))).filter
          (fun g2 => ¬ g2.isEmpty), ¬ g2.isEmpty = true := by
      intro g2 hg2
      have := (List.mem_filter.mp hg2).2
      rwa [decide_eq_true_eq] at this
    by_cases hu : (files.filter
        (fun f => ¬ (groupPaths.flatten).contains f.path)).isEmpty = true
    · rw [if_pos hu] at hg
      exact hfiltered g hg
    · rw [if_neg hu] at hg
      rcases List.mem_append.mp hg with hg1 | hg1
      · exact hfiltered g hg1
      · rw [List.mem_singleton] at hg1
        subst hg1
        exact hu
  · intro files hne g hg
    unfold fallbackGrouping at hg
    simp only [foldl_pushNonEmpty, List.nil_append] at hg
    by_cases hlen : ([(categorizeFiles files).config, (categorizeFiles files).docs,
        (categorizeFiles files).other, (categorizeFiles files).test,
        (categorizeFiles files).build].filter (fun b => ¬ b.isEmpty)).length > 0
    · rw [if_pos hlen] at hg
      have := (List.mem_filter.mp hg).2
      rwa [decide_eq_true_eq] at this
    · rw [if_neg hlen] at hg
      rw [List.mem_singleton] at hg
      subst hg
      simpa [List.isEmpty_iff] using hne

/-- Witness for C10 at a concrete one-file input. -/
theorem grouping_groups_nonempty_witness :
    ¬ ([⟨"a.ts", "M", ""⟩] : List GitFileChange).isEmpty = true :=
  grouping_groups_nonempty.2 [⟨"a.ts", "M", ""⟩] (by decide)
    [⟨"a.ts", "M", ""⟩] (by decide)

/-- Claim C6: fallbackGrouping emits exactly the non-empty category buckets
in the fixed priority order config, docs, other, test, build, returning the
whole input as one group only when every bucket is empty; on the two-file
example config.json / src/app.ts it yields the two singleton groups in that
order. -/
theorem fallbackGrouping_spec :
    (∀ files : List GitFileChange,
      fallbackGrouping files =
        (if (([(categorizeFiles files).config, (categorizeFiles files).docs,
            (categorizeFiles files).other, (categorizeFiles files).test,
            (categorizeFiles files).build].filter
              (fun b => ¬ b.isEmpty)).isEmpty) then [files]
         else [(categorizeFiles files).config, (categorizeFiles files).docs,
            (categorizeFiles files).other, (categorizeFiles files).test,
            (categorizeFiles files).build].filter (fun b => ¬ b.isEmpty)))
    ∧ fallbackGrouping [⟨"config.json", "M", ""⟩, ⟨"src/app.ts", "M", ""⟩] =
        [[⟨"config.json", "M", ""⟩], [⟨"src/app.ts", "M", ""⟩]] := by
  constructor
  · intro files
    unfold fallbackGrouping
    simp only [foldl_pushNonEmpty, List.nil_append]
    set gs := [(categorizeFiles files).config, (categorizeFiles files).docs,
        (categorizeFiles files).other, (categorizeFiles files).test,
        (categorizeFiles files).build].filter (fun b => ¬ b.isEmpty)
    cases hgs : gs.isEmpty
    · have hlen : gs.length > 0 := by
        rcases Nat.eq_zero_or_pos gs.length with h0 | h0
        · exact absurd (List.isEmpty_iff_length_eq_zero.mpr h0) (by simp [hgs])
        · exact h0
      rw [if_pos hlen, if_neg (by simp [hgs])]
    · have h0 := List.isEmpty_iff.mp hgs
      rw [h0]
      simp
  · decide

/-- Claim C7: path classification walks the predicates in the fixed order
config, test, docs, build with first match winning, and assigns other exactly
when no predicate matches; in particular any path matching both the config
and the test predicate is classified config. -/
theorem classify_first_match_spec :
    (∀ p, isConfigPath p = true → classify p = .config)
    ∧ (∀ p, isConfigPath p = false → isTestPath p = true → classify p = .test)
    ∧ (∀ p, isConfigPath p = false → isTestPath p = false →
        isDocsPath p = true → classify p = .docs)
    ∧ (∀ p, isConfigPath p = false → isTestPath p = false →
        isDocsPath p = false → isBuildPath p = true → classify p = .build)
    ∧ (∀ p, classify p = .other ↔
        (isConfigPath p = false ∧ isTestPath p = false ∧
         isDocsPath p = false ∧ isBuildPath p = false)) := by
  refine ⟨?_, ?_, ?_, ?_, ?_⟩
  · intro p h; simp [classify, h]
  · intro p h1 h2; simp [classify, h1, h2]
  · intro p h1 h2 h3; simp [classify, h1, h2, h3]
  · intro p h1 h2 h3 h4; simp [classify, h1, h2, h3, h4]
  · intro p
    unfold classify
    constructor
    · intro h
      by_cases h1 : isConfigPath p = true
      · rw [if_pos h1] at h; exact absurd h (by decide)
      · rw [if_neg h1] at h
        by_cases h2 : isTestPath p = true
        · rw [if_pos h2] at h; exact absurd h (by decide)
        · rw [if_neg h2] at h
          by_cases h3 : isDocsPath p = true
          · rw [if_pos h3] at h; exact absurd h (by decide)
          · rw [if_neg h3] at h
            by_cases h4 : isBuildPath p = true
            · rw [if_pos h4] at h; exact absurd h (by decide)
            · exact ⟨Bool.not_eq_true _ ▸ Bool.of_not_eq_true h1,
                Bool.of_not_eq_true h2, Bool.of_not_eq_true h3,
                Bool.of_not_eq_true h4⟩
    · rintro ⟨h1, h2, h3, h4⟩
      simp [h1, h2, h3, h4]

/-- Witness for C7: config.test.json matches both the config pattern and the
test pattern and is classified config. -/
theorem classify_first_match_spec_witness :
    classify "config.test.json" = .config :=
  classify_first_match_spec.1 "config.test.json" (by decide)

theorem bucket_nonempty {files : List GitFileChange} {f : GitFileChange}
    {cat : Category} (hf : f ∈ files) (hc : classify f.path = cat) :
    (bucketOf (categorizeFiles files) cat).isEmpty = false := by
  rw [categorize_bucket]
  cases hmm : (files.filter (fun g => classify g.path == cat)).isEmpty
  · rfl
  · exfalso
    have h0 := List.isEmpty_iff.mp hmm
    have hmem : f ∈ files.filter (fun g => classify g.path == cat) :=
      List.mem_filter.mpr ⟨hf, by simp [hc]⟩
    rw [h0] at hmem
    exact List.not_mem_nil f hmem

theorem bucket_empty (cat : Category) {files : List GitFileChange}
    (h : ∀ f ∈ files, classify f.path ≠ cat) :
    (bucketOf (categorizeFiles files) cat).isEmpty = true := by
  rw [categorize_bucket, List.isEmpty_iff, List.filter_eq_nil_iff]
  intro a ha
  simp [h a ha]

/-- Claim C5: generateFallbackTitle checks category presence in the priority
order test, docs, config, build with fixed canned titles, then falls through
to the added/deleted status rules and finally to the refactor default; on a
single added README.md the docs rule wins over the added-status rule. -/
theorem generateFallbackTitle_spec :
    (∀ files : List GitFileChange,
      (∃ f ∈ files, classify f.path = .test) →
        generateFallbackTitle files = "test: update tests")
    ∧ (∀ files : List GitFileChange,
      (∀ f ∈ files, classify f.path ≠ .test) →
      (∃ f ∈ files, classify f.path = .docs) →
        generateFallbackTitle files = "docs: update documentation")
    ∧ (∀ files : List GitFileChange,
      (∀ f ∈ files, classify f.path ≠ .test) →
      (∀ f ∈ files, classify f.path ≠ .docs) →
      (∃ f ∈ files, classify f.path = .config) →
        generateFallbackTitle files = "config: update configuration")
    ∧ (∀ files : List GitFileChange,
      (∀ f ∈ files, classify f.path ≠ .test) →
      (∀ f ∈ files, classify f.path ≠ .docs) →
      (∀ f ∈ files, classify f.path ≠ .config) →
      (∃ f ∈ files, classify f.path = .build) →
        generateFallbackTitle files = "build: update build files")
    ∧ (∀ files : List GitFileChange,
      (∀ f ∈ files, classify f.path = .other) →
      (∃ f ∈ files, f.status = "A") →
        generateFallbackTitle files = "feat: add new files")
    ∧ (∀ files : List GitFileChange,
      (∀ f ∈ files, classify f.path = .other) →
      (∀ f ∈ files, f.status ≠ "A") →
      (∃ f ∈ files, f.status = "D") →
        generateFallbackTitle files = "chore: remove files")
    ∧ (∀ files : List GitFileChange,
      (∀ f ∈ files, classify f.path = .other) →
      (∀ f ∈ files, f.status ≠ "A") →
      (∀ f ∈ files, f.status ≠ "D") →
        generateFallbackTitle files = "refactor: update code")
    ∧ generateFallbackTitle [⟨"README.md", "A", ""⟩] =
        "docs: update documentation" := by
  refine ⟨?_, ?_, ?_, ?_, ?_, ?_, ?_, by decide⟩
  · intro files hex
    obtain ⟨f, hf, hc⟩ := hex
    have ht := bucket_nonempty hf hc
    simp only [bucketOf] at ht
    unfold generateFallbackTitle
    simp [ht]
  · intro files hno hex
    obtain ⟨f, hf, hc⟩ := hex
    have ht := bucket_empty _ hno
    have hd := bucket_nonempty hf hc
    simp only [bucketOf] at ht hd
    unfold generateFallbackTitle
    simp [ht, hd]
  · intro files hnt hnd hex
    obtain ⟨f, hf, hc⟩ := hex
    have ht := bucket_empty _ hnt
    have hd := bucket_empty _ hnd
    have hcfg := bucket_nonempty hf hc
    simp only [bucketOf] at ht hd hcfg
    unfold generateFallbackTitle
    simp [ht, hd, hcfg]
  · intro files hnt hnd hnc hex
    obtain ⟨f, hf, hc⟩ := hex
    have ht := bucket_empty _ hnt
    have hd := bucket_empty _ hnd
    have hcfg := bucket_empty _ hnc
    have hb := bucket_nonempty hf hc
    simp only [bucketOf] at ht hd hcfg hb
    unfold generateFallbackTitle
    simp [ht, hd, hcfg, hb]
  · intro files hoth hex
    obtain ⟨f, hf, hs⟩ := hex
    have ht := bucket_empty Category.test
      (fun g hg => by rw [hoth g hg]; decide)
    have hd := bucket_empty Category.docs
      (fun g hg => by rw [hoth g hg]; decide)
    have hcfg := bucket_empty Category.config
      (fun g hg => by rw [hoth g hg]; decide)
    have hb := bucket_empty Category.build
      (fun g hg => by rw [hoth g hg]; decide)
    have ha : files.any (fun g => g.status == "A") = true :=
      List.any_eq_true.mpr ⟨f, hf, by simp [hs]⟩
    simp only [bucketOf] at ht hd hcfg hb
    unfold generateFallbackTitle
    simp [ht, hd, hcfg, hb, ha]
  · intro files hoth hnoA hex
    obtain ⟨f, hf, hs⟩ := hex
    have ht := bucket_empty Category.test
      (fun g hg => by rw [hoth g hg]; decide)
    have hd := bucket_empty Category.docs
      (fun g hg => by rw [hoth g hg]; decide)
    have hcfg := bucket_empty Category.config
      (fun g hg => by rw [hoth g hg]; decide)
    have hb := bucket_empty Category.build
      (fun g hg => by rw [hoth g hg]; decide)
    have ha : files.any (fun g => g.status == "A") = false :=
      List.any_eq_false.mpr (fun g hg => by simp [hnoA g hg])
    have hdel : files.any (fun g => g.status == "D") = true :=
      List.any_eq_true.mpr ⟨f, hf, by simp [hs]⟩
    simp only [bucketOf] at ht hd hcfg hb
    unfold generateFallbackTitle
    simp [ht, hd, hcfg, hb, ha, hdel]
  · intro files hoth hnoA hnoD
    have ht := bucket_empty Category.test
      (fun g hg => by rw [hoth g hg]; decide)
    have hd := bucket_empty Category.docs
      (fun g hg => by rw [hoth g hg]; decide)
    have hcfg := bucket_empty Category.config
      (fun g hg => by rw [hoth g hg]; decide)
    have hb := bucket_empty Category.build
      (fun g hg => by rw [hoth g hg]; decide)
    have ha : files.any (fun g => g.status == "A") = false :=
      List.any_eq_false.mpr (fun g hg => by simp [hnoA g hg])
    have hdel : files.any (fun g => g.status == "D") = false :=
      List.any_eq_false.mpr (fun g hg => by simp [hnoD g hg])
    simp only [bucketOf] at ht hd hcfg hb
    unfold generateFallbackTitle
    simp [ht, hd, hcfg, hb, ha, hdel]

/-- Witness for C5 at a one-file test input. -/
theorem generateFallbackTitle_spec_witness :
    generateFallbackTitle [⟨"a.test.ts", "M", ""⟩] = "test: update tests" :=
  generateFallbackTitle_spec.1 [⟨"a.test.ts", "M", ""⟩]
    ⟨⟨"a.test.ts", "M", ""⟩, by decide, by decide⟩

theorem takeStr_ellipsis_length (t : String) (n : Nat) :
    (Js.takeStr t n ++ "...").length = min n t.data.length + 3 := by
  rw [Js.length_eq_data, Js.data_append]
  simp [Js.takeStr]

theorem endsWith_append_self (x suf : String) :
    Js.endsWith (x ++ suf) suf = true := by
  unfold Js.endsWith
  rw [Js.data_append, List.isSuffixOf_iff_suffix]
  exact List.suffix_append _ _

theorem ite_length_le {c : Prop} [Decidable c] {a b : String} {n : Nat}
    (ha : a.length ≤ n) (hb : b.length ≤ n) :
    (if c then a else b).length ≤ n := by
  split
  · exact ha
  · exact hb

/-- Claim C2, counterexample: with the configured limit 2 and a valid raw
title, the truncation path returns the three-character ellipsis string, whose
length exceeds the limit, so the bound does not hold for every configured
maxCommitTitleLength. -/
theorem generateCommitTitle_budget_counterexample :
    ¬ ((generateCommitTitle [.result "feat: add user authentication"] [] 2).length
        ≤ 2) := by decide

/-- Claim C2, amended: for limits of at least 3, a title extracted from the
messages is returned with length at most the limit, and equals the limit with
a trailing ellipsis whenever the raw candidate was longer; when extraction
fails the fallback title is returned, which is one of seven canned strings of
length at most 28 (within the default limit 50) but is not itself clamped to
the configured limit. -/
theorem generateCommitTitle_length_amended :
    (∀ (messages : List SDKMessage) (files : List GitFileChange)
        (maxLen : Nat) (raw : String), 3 ≤ maxLen →
      extractTitleFromMessages messages = some raw →
      (generateCommitTitle messages files maxLen).length ≤ maxLen ∧
      (maxLen < raw.length →
        (generateCommitTitle messages files maxLen).length = maxLen ∧
        Js.endsWith (generateCommitTitle messages files maxLen) "..." = true))
    ∧ (∀ (messages : List SDKMessage) (files : List GitFileChange)
        (maxLen : Nat),
      extractTitleFromMessages messages = none →
      generateCommitTitle messages files maxLen = generateFallbackTitle files)
    ∧ (∀ files : List GitFileChange, (generateFallbackTitle files).length ≤ 28) := by
  refine ⟨?_, ?_, ?_⟩
  · intro messages files maxLen raw hmax hr
    unfold generateCommitTitle
    rw [hr]
    dsimp only
    by_cases hlen : raw.length > maxLen
    · rw [if_pos hlen]
      have hdata : raw.length = raw.data.length := Js.length_eq_data raw
      have hminEq : min (maxLen - 3) raw.data.length = maxLen - 3 := by omega
      have heq : (Js.takeStr raw (maxLen - 3) ++ "...").length = maxLen := by
        rw [takeStr_ellipsis_length, hminEq]
        omega
      exact ⟨by omega, fun _ => ⟨heq, endsWith_append_self _ _⟩⟩
    · rw [if_neg hlen]
      exact ⟨Nat.le_of_not_lt hlen, fun h2 => absurd h2 hlen⟩
  · intro messages files maxLen h
    unfold generateCommitTitle
    rw [h]
  · intro files
    unfold generateFallbackTitle
    exact ite_length_le (by decide) (ite_length_le (by decide)
      (ite_length_le (by decide) (ite_length_le (by decide)
        (ite_length_le (by decide) (ite_length_le (by decide) (by decide))))))

/-- Witness for the amended C2 theorem: a 29-character raw title against the
limit 10 is truncated to exactly 10 characters ending in the ellipsis. -/
theorem generateCommitTitle_length_amended_witness :
    (generateCommitTitle [.result "feat: add user authentication"] [] 10).length
      = 10 ∧
    Js.endsWith (generateCommitTitle
      [.result "feat: add user authentication"] [] 10) "..." = true :=
  (generateCommitTitle_length_amended.1
    [.result "feat: add user authentication"] [] 10
    "feat: add user authentication" (by decide) (by decide)).2 (by decide)

theorem validLineOf_eq_none {t : String}
    (h : ∀ line ∈ Js.split (Js.trim t) '\n',
      isValidCommitTitle (Js.trim line) = false) :
    validLineOf t = none := by
  unfold validLineOf
  rw [List.findSome?_eq_none_iff]
  intro line hl
  simp [h line hl]

theorem lower_includes_of_includes {text pat : String}
    (hpat : (pat.data.map Char.toLower) = pat.data)
    (h : Js.includes text pat = true) :
    Js.includes (Js.lower text) pat = true := by
  unfold Js.includes Js.lower at *
  have h2 := Js.includesL_map Char.toLower pat.data text.data h
  rwa [hpat] at h2

theorem prefixes_lower_nonempty :
    ∀ p ∈ conventionalPrefixes, (Js.lower p).data ≠ [] := by decide

/-- Claim C4: a candidate is accepted by isValidCommitTitle exactly when its
lowercasing starts with a whitelisted conventional prefix and contains no
blacklisted conversational phrase; any line containing the phrase let me, or
the contraction of I will, or lacking every whitelisted prefix, is rejected;
and when no line of any fragment passes, the commit title degrades to
generateFallbackTitle. -/
theorem isValidCommitTitle_spec :
    (∀ text : String, isValidCommitTitle text = true ↔
      ((∃ p ∈ conventionalPrefixes,
          Js.startsWith (Js.lower text) (Js.lower p) = true) ∧
       (∀ ph ∈ conversationalPhrases,
          Js.includes (Js.lower text) (Js.lower ph) = false)))
    ∧ (∀ text : String, Js.includes text "let me" = true →
        isValidCommitTitle text = false)
    ∧ (∀ text : String, Js.includes text ("i" ++ Js.apos ++ "ll") = true →
        isValidCommitTitle text = false)
    ∧ (∀ text : String,
        (∀ p ∈ conventionalPrefixes,
          Js.startsWith (Js.lower text) (Js.lower p) = false) →
        isValidCommitTitle text = false)
    ∧ (∀ (messages : List SDKMessage) (files : List GitFileChange)
        (maxLen : Nat),
        (∀ m ∈ messages, ∀ t ∈ fragmentTexts m,
          ∀ line ∈ Js.split (Js.trim t) '\n',
            isValidCommitTitle (Js.trim line) = false) →
        generateCommitTitle messages files maxLen =
          generateFallbackTitle files) := by
  have hphrase_false : ∀ text ph, ph ∈ conversationalPhrases →
      Js.includes (Js.lower text) (Js.lower ph) = true →
      isValidCommitTitle text = false := by
    intro text ph hmem hincl
    unfold isValidCommitTitle
    cases he : text.data.isEmpty
    · simp only [Bool.false_eq_true, if_false]
      have hany : conversationalPhrases.any
          (fun q => Js.includes (Js.lower text) (Js.lower q)) = true :=
        List.any_eq_true.mpr ⟨ph, hmem, hincl⟩
      rw [hany]
      simp
    · simp
  refine ⟨?_, ?_, ?_, ?_, ?_⟩
  · intro text
    unfold isValidCommitTitle
    cases he : text.data.isEmpty
    · simp only [he, Bool.false_eq_true, if_false, Bool.and_eq_true,
        Bool.not_eq_true', List.any_eq_true, List.any_eq_false,
        Bool.not_eq_true]
    · have hdata : text.data = [] := List.isEmpty_iff.mp he
      simp only [if_true, he]
      constructor
      · intro hcontra; exact absurd hcontra (by decide)
      · rintro ⟨⟨p, hp, hsw⟩, _⟩
        exfalso
        unfold Js.startsWith Js.lower at hsw
        rw [hdata] at hsw
        simp only [List.map_nil] at hsw
        rw [ List.isPrefixOf_iff_prefix] at hsw
        exact prefixes_lower_nonempty p hp (List.prefix_nil.mp hsw)
  · intro text h
    refine hphrase_false text "let me" (by decide) ?_
    rw [show Js.lower "let me" = "let me" from by decide]
    exact lower_includes_of_includes (by decide) h
  · intro text h
    refine hphrase_false text ("i" ++ Js.apos ++ "ll") (by decide) ?_
    rw [show Js.lower ("i" ++ Js.apos ++ "ll") = "i" ++ Js.apos ++ "ll"
      from by decide]
    exact lower_includes_of_includes (by decide) h
  · intro text h
    unfold isValidCommitTitle
    cases he : text.data.isEmpty
    · simp only [Bool.false_eq_true, if_false]
      have hany : conventionalPrefixes.any
          (fun p => Js.startsWith (Js.lower text) (Js.lower p)) = false :=
        List.any_eq_false.mpr (fun p hp => by simp [h p hp])
      rw [hany]
      simp
    · simp
  · intro messages files maxLen h
    have hext : extractTitleFromMessages messages = none := by
      unfold extractTitleFromMessages
      rw [scanBack_eq_none]
      intro m hm
      cases m with
      | result t =>
        unfold titleFromMessage
        cases he : t.data.isEmpty
        · simp only [he, Bool.false_eq_true, if_false]
          refine validLineOf_eq_none ?_
          intro line hl
          refine h _ hm t ?_ line hl
          simp [fragmentTexts, he]
        · simp [he]
      | assistant blocks =>
        unfold titleFromMessage
        rw [List.findSome?_eq_none_iff]
        intro b hb
        cases b with
        | text s =>
          cases he : s.data.isEmpty
          · simp only [he, Bool.false_eq_true, if_false]
            refine validLineOf_eq_none ?_
            intro line hl
            refine h _ hm s ?_ line hl
            simp only [fragmentTexts]
            exact List.mem_filterMap.mpr ⟨.text s, hb, by simp [he]⟩
          · simp [he]
        | other => rfl
      | other => rfl
    unfold generateCommitTitle
    rw [hext]

/-- Witness for C4: a line containing the phrase let me is rejected. -/
theorem isValidCommitTitle_spec_witness :
    isValidCommitTitle "feat: let me think" = false :=
  isValidCommitTitle_spec.2.1 "feat: let me think" (by decide)

theorem head?_dropWhile (p : α → Bool) :
    ∀ (l : List α) (c : α), (l.dropWhile p).head? = some c → p c = false := by
  intro l
  induction l with
  | nil => intro c h; exact Option.noConfusion h
  | cons a l ih =>
    intro c h
    rw [List.dropWhile_cons] at h
    by_cases hp : p a = true
    · rw [if_pos hp] at h
      exact ih _ h
    · rw [if_neg hp] at h
      have : a = c := Option.some.inj h
      subst this
      exact Bool.not_eq_true _ ▸ hp

theorem dropWhile_ne_nil_of_mem {p : α → Bool} {c : α} :
    ∀ {l : List α}, c ∈ l → p c = false → l.dropWhile p ≠ [] := by
  intro l
  induction l with
  | nil => intro hc; exact absurd hc (List.not_mem_nil c)
  | cons a l ih =>
    intro hc hp
    rw [List.dropWhile_cons]
    by_cases hpa : p a = true
    · rw [if_pos hpa]
      rcases List.mem_cons.mp hc with rfl | hc2
      · rw [hp] at hpa; exact Bool.noConfusion hpa
      · exact ih hc2 hp
    · rw [if_neg hpa]
      exact List.cons_ne_nil a l

theorem closing_mem_dropWhile :
    ∀ (l m r : List Char),
      ']' ∈ (l ++ '[' :: (m ++ ']' :: r)).dropWhile (fun c => !(c == '[')) := by
  intro l
  induction l with
  | nil =>
    intro m r
    rw [List.nil_append, List.dropWhile_cons]
    simp only [beq_self_eq_true, Bool.not_true, Bool.false_eq_true, if_false]
    exact List.mem_cons_of_mem '[' (List.mem_append_right m (List.mem_cons_self ']' r))
  | cons a l ih =>
    intro m r
    rw [List.cons_append, List.dropWhile_cons]
    by_cases ha : (!(a == '[')) = true
    · rw [if_pos ha]
      exact ih m r
    · rw [if_neg ha]
      have : a = '[' := by
        have := Bool.not_eq_true _ ▸ ha
        simpa using this
      subst this
      exact List.mem_cons_of_mem '['
        (List.mem_append_right l
          (List.mem_cons_of_mem '[' (List.mem_append_right m (List.mem_cons_self ']' r))))

theorem bracketSlice_isSome_iff (cs : List Char) :
    (bracketSlice cs).isSome = true ↔
      ∃ l m r, cs = l ++ '[' :: (m ++ ']' :: r) := by
  unfold bracketSlice
  constructor
  · intro h
    by_cases hrc : ((cs.dropWhile (fun c => !(c == '['))).reverse.dropWhile
        (fun c => !(c == ']'))).isEmpty = true
    · rw [if_pos hrc] at h
      exact Bool.noConfusion h
    · obtain ⟨c, rcs, hrceq⟩ : ∃ c rcs,
          (cs.dropWhile (fun c => !(c == '['))).reverse.dropWhile
            (fun c => !(c == ']')) = c :: rcs := by
        cases hr2 : (cs.dropWhile (fun c => !(c == '['))).reverse.dropWhile
            (fun c => !(c == ']')) with
        | nil => rw [hr2] at hrc; exact absurd rfl hrc
        | cons c rcs => exact ⟨c, rcs, rfl⟩
      have hcq : (!(c == ']')) = false :=
        head?_dropWhile (fun c => !(c == ']'))
          (cs.dropWhile (fun c => !(c == '['))).reverse c (by rw [hrceq]; rfl)
      have hc2 : c = ']' := by simpa using hcq
      have hmem : c ∈ (cs.dropWhile (fun c => !(c == '['))).reverse :=
        List.Sublist.mem (hrceq ▸ List.mem_cons_self c rcs)
          (List.dropWhile_sublist _)
      have hmem2 : ']' ∈ cs.dropWhile (fun c => !(c == '[')) := by
        rw [← List.mem_reverse]
        exact hc2 ▸ hmem
      obtain ⟨d, ds, htleq⟩ : ∃ d ds,
          cs.dropWhile (fun c => !(c == '[')) = d :: ds := by
        cases ht2 : cs.dropWhile (fun c => !(c == '[')) with
        | nil => rw [ht2] at hmem2; exact absurd hmem2 (List.not_mem_nil _)
        | cons d ds => exact ⟨d, ds, rfl⟩
      have hdq : (!(d == '[')) = false :=
        head?_dropWhile (fun c => !(c == '[')) cs d (by rw [htleq]; rfl)
      have hd2 : d = '[' := by simpa using hdq
      have hmem3 : ']' ∈ ds := by
        rcases List.mem_cons.mp (htleq ▸ hmem2) with he | he
        · rw [hd2] at he; exact absurd he (by decide)
        · exact he
      obtain ⟨m, r, hmr⟩ := List.append_of_mem hmem3
      refine ⟨cs.takeWhile (fun c => !(c == '[')), m, r, ?_⟩
      conv_lhs => rw [← List.takeWhile_append_dropWhile
        (fun c => !(c == '[')) cs]
      rw [htleq, hd2, hmr]
  · rintro ⟨l, m, r, rfl⟩
    have hmem := closing_mem_dropWhile l m r
    have hne : (((l ++ '[' :: (m ++ ']' :: r)).dropWhile
        (fun c => !(c == '['))).reverse).dropWhile
          (fun c => !(c == ']')) ≠ [] :=
      dropWhile_ne_nil_of_mem (List.mem_reverse.mpr hmem) (by decide)
    rw [if_neg (fun hemp => hne (List.isEmpty_iff.mp hemp))]
    rfl

theorem bracketSlice_decomp {cs m : List Char} (h : bracketSlice cs = some m) :
    ∃ pre post, cs = pre ++ m ++ post ∧ (∀ c ∈ pre, ¬ c = '[') ∧
      (∀ c ∈ post, ¬ c = ']') ∧ m.head? = some '[' ∧ m.getLast? = some ']' := by
  unfold bracketSlice at h
  by_cases hemp : ((cs.dropWhile (fun c => !(c == '['))).reverse.dropWhile
      (fun c => !(c == ']'))).isEmpty = true
  · rw [if_pos hemp] at h
    exact Option.noConfusion h
  · rw [if_neg hemp] at h
    have hm : m = ((cs.dropWhile (fun c => !(c == '['))).reverse.dropWhile
        (fun c => !(c == ']'))).reverse := (Option.some.inj h).symm
    obtain ⟨c, rcs, hc⟩ : ∃ c rcs,
        (cs.dropWhile (fun c => !(c == '['))).reverse.dropWhile
          (fun c => !(c == ']')) = c :: rcs := by
      cases hr2 : (cs.dropWhile (fun c => !(c == '['))).reverse.dropWhile
          (fun c => !(c == ']')) with
      | nil => rw [hr2] at hemp; exact absurd rfl hemp
      | cons c rcs => exact ⟨c, rcs, rfl⟩
    have hcq : (!(c == ']')) = false :=
      head?_dropWhile (fun c => !(c == ']'))
        (cs.dropWhile (fun c => !(c == '['))).reverse c (by rw [hc]; rfl)
    have hc2 : c = ']' := by simpa using hcq
    have hsplit : (cs.dropWhile (fun c => !(c == '['))).reverse =
        (cs.dropWhile (fun c => !(c == '['))).reverse.takeWhile
          (fun c => !(c == ']')) ++
        (cs.dropWhile (fun c => !(c == '['))).reverse.dropWhile
          (fun c => !(c == ']')) :=
      (List.takeWhile_append_dropWhile _ _).symm
    have htl2 : cs.dropWhile (fun c => !(c == '[')) =
        m ++ ((cs.dropWhile (fun c => !(c == '['))).reverse.takeWhile
          (fun c => !(c == ']'))).reverse := by
      rw [hm]
      conv_lhs => rw [← List.reverse_reverse
        (cs.dropWhile (fun c => !(c == '[')))]
      conv_lhs => rw [hsplit]
      rw [List.reverse_append]
    have hpostc : ∀ x ∈ ((cs.dropWhile (fun c => !(c == '['))).reverse.takeWhile
        (fun c => !(c == ']'))).reverse, ¬ x = ']' := by
      intro x hx
      have := List.mem_takeWhile_imp (List.mem_reverse.mp hx)
      simpa using this
    have hprec : ∀ x ∈ cs.takeWhile (fun c => !(c == '[')), ¬ x = '[' := by
      intro x hx
      have := List.mem_takeWhile_imp hx
      simpa using this
    have hlast : m.getLast? = some ']' := by
      rw [hm, hc, hc2]
      simp [List.getLast?_concat]
    have hmne : m ≠ [] := by
      rw [hm, hc]
      simp
    obtain ⟨e, es, hme⟩ : ∃ e es, m = e :: es := by
      cases hm2 : m with
      | nil => exact absurd hm2 hmne
      | cons e es => exact ⟨e, es, rfl⟩
    have htlh : (cs.dropWhile (fun c => !(c == '['))).head? = some e := by
      rw [htl2, hme]
      rfl
    have heq : (!(e == '[')) = false :=
      head?_dropWhile (fun c => !(c == '[')) cs e htlh
    have he2 : e = '[' := by simpa using heq
    have hhead : m.head? = some '[' := by rw [hme, he2]; rfl
    refine ⟨cs.takeWhile (fun c => !(c == '[')),
      ((cs.dropWhile (fun c => !(c == '['))).reverse.takeWhile
        (fun c => !(c == ']'))).reverse, ?_, hprec, hpostc, hhead, hlast⟩
    conv_lhs => rw [← List.takeWhile_append_dropWhile (fun c => !(c == '[')) cs,
      htl2]
    rw [List.append_assoc]

/-- Claim C3: the grouping extraction scans fragments most recent first and
fails exactly when every fragment fails; the bracket regex greedily matches
from the first opening bracket to the last closing bracket, existing exactly
when a closing bracket follows an opening one; and the prose-wrapped JSON
example parses to the two path groups. -/
theorem extractGroupPaths_spec :
    (∀ (parse : String → Option Json) (messages : List SDKMessage),
      extractGroupPathsFromMessages parse messages = none ↔
        ∀ m ∈ messages, groupsFromMessage parse m = none)
    ∧ (∀ (parse : String → Option Json) (messages : List SDKMessage)
        (m : SDKMessage) (r : Json),
      groupsFromMessage parse m = some r →
      extractGroupPathsFromMessages parse (messages ++ [m]) = some r)
    ∧ (∀ cs : List Char, (bracketSlice cs).isSome = true ↔
        ∃ l m r, cs = l ++ '[' :: (m ++ ']' :: r))
    ∧ (∀ cs m : List Char, bracketSlice cs = some m →
        ∃ pre post, cs = pre ++ m ++ post ∧ (∀ c ∈ pre, ¬ c = '[') ∧
          (∀ c ∈ post, ¬ c = ']') ∧ m.head? = some '[' ∧ m.getLast? = some ']')
    ∧ extractGroupPathsFromMessages jsonParse
        [.result "Sure, here you go: [[\"a.ts\",\"b.ts\"],[\"c.json\"]] hope that helps!"] =
      some (.arr [.arr [.str "a.ts", .str "b.ts"], .arr [.str "c.json"]]) := by
  refine ⟨?_, ?_, bracketSlice_isSome_iff,
    fun cs m h => bracketSlice_decomp h, rfl⟩
  · intro parse messages
    exact scanBack_eq_none
  · intro parse messages m r h
    exact scanBack_append_last h messages

/-- Witness for C3: a result fragment holding a bare empty JSON array, placed
after an untyped fragment, is parsed from the most recent position. -/
theorem extractGroupPaths_spec_witness :
    extractGroupPathsFromMessages jsonParse
      ([SDKMessage.other] ++ [.result "[]"]) = some (.arr []) :=
  extractGroupPaths_spec.2.1 jsonParse [SDKMessage.other]
    (.result "[]") (.arr []) rfl

theorem stagedEntry_pathStatus (g g2 : String → String → Option String)
    (line : String) :
    (stagedEntry g line).map (fun f => (f.path, f.status)) =
    (stagedEntry g2 line).map (fun f => (f.path, f.status)) := by
  unfold stagedEntry
  by_cases hp : (Js.split line '\t').length < 2
  · rw [if_pos hp, if_pos hp]
  · rw [if_neg hp, if_neg hp]
    dsimp only
    split <;> split <;> rfl

theorem filterMap_pathStatus_eq (g g2 : String → String → Option String) :
    ∀ l : List String,
      ((l.filterMap (stagedEntry g)).map (fun f => (f.path, f.status))) =
      ((l.filterMap (stagedEntry g2)).map (fun f => (f.path, f.status))) := by
  intro l
  induction l with
  | nil => rfl
  | cons line rest ih =>
    rw [List.filterMap_cons, List.filterMap_cons]
    have hline := stagedEntry_pathStatus g g2 line
    cases h1 : stagedEntry g line <;> cases h2 : stagedEntry g2 line
    · exact ih
    · rw [h1, h2] at hline
      exact Option.noConfusion hline
    · rw [h1, h2] at hline
      exact Option.noConfusion hline
    · rw [h1, h2] at hline
      simp only [Option.map_some'] at hline
      rw [List.map_cons, List.map_cons, ih, Option.some.inj hline]

/-- Claim C8: the staged-change reader is, for every status output and diff
oracle, the per-line filterMap that discards lines with fewer than two
tab-separated fields; the path/status sequence of the result does not depend
on the diff oracle at all (so a per-file diff failure can never abort or
reorder the read); and a failing diff retrieval yields the file with an empty
diff. -/
theorem getGitStagedFiles_spec :
    (∀ (statusOutput : String) (getDiff : String → String → Option String),
      getGitStagedFiles statusOutput getDiff =
        (statusLines statusOutput).filterMap (stagedEntry getDiff))
    ∧ (∀ (statusOutput : String) (g g2 : String → String → Option String),
      (getGitStagedFiles statusOutput g).map (fun f => (f.path, f.status)) =
      (getGitStagedFiles statusOutput g2).map (fun f => (f.path, f.status)))
    ∧ (∀ (getDiff : String → String → Option String) (line : String),
      ¬ (Js.split line '\t').length < 2 →
      getDiff ((Js.split line '\t').getD 0 "")
        ((Js.split line '\t').getD 1 "") = none →
      stagedEntry getDiff line =
        some ⟨(Js.split line '\t').getD 1 "",
          (Js.split line '\t').getD 0 "", ""⟩) := by
  have h1 : ∀ (statusOutput : String) (getDiff : String → String → Option String),
      getGitStagedFiles statusOutput getDiff =
        (statusLines statusOutput).filterMap (stagedEntry getDiff) := by
    intro statusOutput getDiff
    unfold getGitStagedFiles
    by_cases h : (statusLines statusOutput).length = 0
    · rw [if_pos h]
      rw [List.length_eq_zero.mp h]
      rfl
    · rw [if_neg h]
      exact map_filter_isSome_reduceOption _ _
  refine ⟨h1, ?_, ?_⟩
  · intro statusOutput g g2
    rw [h1 statusOutput g, h1 statusOutput g2]
    exact filterMap_pathStatus_eq g g2 (statusLines statusOutput)
  · intro getDiff line hp hd
    unfold stagedEntry
    rw [if_neg hp]
    dsimp only
    rw [hd]

/-- Witness for C8: a well-formed status line whose diff retrieval always
fails still yields the file, with an empty diff. -/
theorem getGitStagedFiles_spec_witness :
    stagedEntry (fun _ _ => none) "M\tapp.ts" = some ⟨"app.ts", "M", ""⟩ :=
  getGitStagedFiles_spec.2.2 (fun _ _ => none) "M\tapp.ts" (by decide) rfl

/-- Claim C9, evaluation at the failing input: the Boolean filter that drops
empty trailers also drops the empty separator element, so the built message
contains no blank line between the title and the Session-ID trailer; empty
prompt and resumedFrom trailers are omitted entirely, and non-empty ones are
emitted. -/
theorem commitChangesMessage_no_blank_line :
    commitChangesMessage "fix: parser"
        ⟨"abc123", "", "2024-01-01T00:00:00Z", ""⟩ =
      "fix: parser\nSession-ID: abc123\nTime: 2024-01-01T00:00:00Z" ∧
    Js.split (commitChangesMessage "fix: parser"
        ⟨"abc123", "", "2024-01-01T00:00:00Z", ""⟩) '\n' =
      ["fix: parser", "Session-ID: abc123", "Time: 2024-01-01T00:00:00Z"] ∧
    commitChangesMessage "feat: x" ⟨"s1", "do it", "T1", "prev"⟩ =
      "feat: x\nSession-ID: s1\nPrompt: " ++ dq ++ "do it" ++ dq ++
        "\nTime: T1\nResumed-From: prev" := by
  refine ⟨by decide, by decide, by decide⟩
